import Mathlib

/-!
A shallow embedding of the `kvs` log-structured key-value store
(`src/lib.rs`), together with theorems settling the specification claims.

The store keeps an in-memory index from keys to `(offset, len)` locations
inside an append-style log file, replays the log on `open`, and rewrites the
log through a temporary file (`kvs.log.swp`) plus `fs::rename` when a `set`
changes the encoded length of an existing record.

Modelling conventions:
* file contents are `List Char` (the store only ever writes UTF-8 text;
  offsets and lengths in the theorems use character counts, which agree with
  byte counts on the ASCII data exercised here);
* the Unix file-descriptor semantics that the Rust code relies on are made
  explicit: the `File` handle kept in `KvStore.log` refers to an inode, and
  `fs::rename` of the swap file replaces the *path* without touching the
  handle, so the model carries both the handle's inode content
  (`handleData`), the handle's seek position (`handlePos`, mutated by
  `seek`/`read`/`write_all` but not by the positional `write_at`), and the
  content stored at the log path (`pathData`), plus an `aliased` flag
  recording whether the handle still refers to the file at the path;
* `serde_json` is an external crate, so its serialization of `OptData` is
  modelled: `encodeOpt` produces exactly the externally-tagged JSON emitted
  by `serde_json::to_string`, and `decodeOpt` parses that shape back
  (accepting leading/trailing JSON whitespace, escape sequences, and
  rejecting raw control characters, truncation and trailing garbage, as
  `serde_json::from_str` does on the inputs this store can produce);
* I/O primitives never fail in the model; the error paths that remain are
  decode failures (`corruptLog`) and `remove` on an absent key
  (`keyNotFound`).
-/

namespace Kvs

/-- The three command shapes of `OptData` in `src/lib.rs`; only `SetData` and
`RmData` are ever persisted. -/
inductive OptData where
  | SetData (key value : String)
  | RmData (key : String)
  | GetData (key : String)
deriving DecidableEq

/-- Left curly brace character (written via its code point). -/
def lb : Char := '\x7b'

/-- Right curly brace character (written via its code point). -/
def rb : Char := '\x7d'

/-- Lower-case hex digit, as `serde_json` uses in `\u00XX` escapes. -/
def hexDig (n : Nat) : Char :=
  if n < 10 then Char.ofNat (48 + n) else Char.ofNat (87 + n)

/-- Value of a hex digit character (JSON accepts both cases). -/
def hexVal (c : Char) : Option Nat :=
  if 48 ≤ c.toNat ∧ c.toNat ≤ 57 then some (c.toNat - 48)
  else if 97 ≤ c.toNat ∧ c.toNat ≤ 102 then some (c.toNat - 87)
  else if 65 ≤ c.toNat ∧ c.toNat ≤ 70 then some (c.toNat - 55)
  else none

/-- JSON escaping of one character, exactly as `serde_json` emits it: the
short escapes for quote, backslash and the five named control characters,
`\u00XX` for the remaining control characters, and everything else verbatim. -/
def escapeChar (c : Char) : List Char :=
  if c = '"' then ['\\', '"']
  else if c = '\\' then ['\\', '\\']
  else if c = '\n' then ['\\', 'n']
  else if c = '\r' then ['\\', 'r']
  else if c = '\t' then ['\\', 't']
  else if c = '\x08' then ['\\', 'b']
  else if c = '\x0c' then ['\\', 'f']
  else if c.toNat < 32 then
    ['\\', 'u', '0', '0', hexDig (c.toNat / 16), hexDig (c.toNat % 16)]
  else [c]

/-- JSON escaping of a character sequence. -/
def escList : List Char → List Char
  | [] => []
  | c :: r => escapeChar c ++ escList r

/-- Skeleton of an encoded `SetData` up to the key's opening quote. -/
def setPre : List Char := (lb :: "\"SetData\":".data) ++ (lb :: "\"key\":\"".data)

/-- Skeleton of an encoded `RmData` up to the key's opening quote. -/
def rmPre : List Char := (lb :: "\"RmData\":".data) ++ (lb :: "\"key\":\"".data)

/-- Skeleton of an encoded `GetData` up to the key's opening quote. -/
def getPre : List Char := (lb :: "\"GetData\":".data) ++ (lb :: "\"key\":\"".data)

/-- Skeleton between the key and the value of an encoded `SetData`
(closing quote of the key included). -/
def setMid : List Char := '"' :: ",\"value\":\"".data

/-- Skeleton closing an encoded record (closing quote of the last string
field, then the two closing braces). -/
def objEnd : List Char := ['"', rb, rb]

/-- Model of `serde_json::to_string(&data)` for `OptData`: the
externally-tagged single-line JSON encoding. -/
def encodeOpt : OptData → List Char
  | .SetData k v => setPre ++ escList k.data ++ setMid ++ escList v.data ++ objEnd
  | .RmData k => rmPre ++ escList k.data ++ objEnd
  | .GetData k => getPre ++ escList k.data ++ objEnd

/-- JSON whitespace (the four characters `serde_json` skips). -/
def isWs (c : Char) : Bool := c = ' ' || c = '\t' || c = '\n' || c = '\r'

/-- Drop leading JSON whitespace. -/
def skipWs : List Char → List Char
  | [] => []
  | c :: r => if isWs c then skipWs r else c :: r

/-- Unescaping of a single short escape character after a backslash. -/
def unescChar (c : Char) : Option Char :=
  if c = '"' then some '"'
  else if c = '\\' then some '\\'
  else if c = '/' then some '/'
  else if c = 'n' then some '\n'
  else if c = 'r' then some '\r'
  else if c = 't' then some '\t'
  else if c = 'b' then some '\x08'
  else if c = 'f' then some '\x0c'
  else none

/-- Parse the body of a JSON string literal (the opening quote already
consumed), returning the unescaped characters and the rest of the input.
Raw control characters, truncated input and bad escapes fail, as in
`serde_json`. -/
def parseStrBody : List Char → Option (List Char × List Char)
  | [] => none
  | '"' :: r => some ([], r)
  | '\\' :: 'u' :: h1 :: h2 :: h3 :: h4 :: r =>
    match hexVal h1, hexVal h2, hexVal h3, hexVal h4, parseStrBody r with
    | some a, some b, some c, some d, some (s, rest) =>
      some (Char.ofNat (4096 * a + 256 * b + 16 * c + d) :: s, rest)
    | _, _, _, _, _ => none
  | '\\' :: e :: r =>
    match unescChar e, parseStrBody r with
    | some u, some (s, rest) => some (u :: s, rest)
    | _, _ => none
  | c :: r =>
    if c.toNat < 32 then none
    else
      match parseStrBody r with
      | some (s, rest) => some (c :: s, rest)
      | none => none

/-- Match a literal character sequence at the head of the input. -/
def expectList : List Char → List Char → Option (List Char)
  | [], rest => some rest
  | p :: ps, c :: cs => if c = p then expectList ps cs else none
  | _ :: _, [] => none

/-- Attempt to parse one encoded record given its fixed skeleton pieces;
used for the `RmData` and `GetData` shapes (a single `key` field). -/
def decodeKeyOnly (pre : List Char) (mk : String → OptData) (l : List Char) :
    Option OptData :=
  match expectList pre l with
  | none => none
  | some r1 =>
    match parseStrBody r1 with
    | none => none
    | some (k, r2) =>
      match expectList [rb, rb] r2 with
      | none => none
      | some r3 => if (skipWs r3).isEmpty then some (mk (String.mk k)) else none

/-- Attempt to parse an encoded `SetData`. -/
def decodeSet (l : List Char) : Option OptData :=
  match expectList setPre l with
  | none => none
  | some r1 =>
    match parseStrBody r1 with
    | none => none
    | some (k, r2) =>
      match expectList (",\"value\":\"".data) r2 with
      | none => none
      | some r3 =>
        match parseStrBody r3 with
        | none => none
        | some (v, r4) =>
          match expectList [rb, rb] r4 with
          | none => none
          | some r5 =>
            if (skipWs r5).isEmpty then
              some (.SetData (String.mk k) (String.mk v))
            else none

/-- Model of `serde_json::from_str::<OptData>`: parse one of the three
record shapes, allowing leading and trailing JSON whitespace and failing on
everything else. -/
def decodeOpt (l : List Char) : Option OptData :=
  let l1 := skipWs l
  match decodeSet l1 with
  | some d => some d
  | none =>
    match decodeKeyOnly rmPre OptData.RmData l1 with
    | some d => some d
    | none => decodeKeyOnly getPre OptData.GetData l1

/-- The `OffsetLen` struct of `src/lib.rs`: offset of a serialized `OptData`
in the log file and its length including the trailing newline. -/
structure OffsetLen where
  offset : Nat
  len : Nat
deriving DecidableEq

/-- Model of the in-memory `HashMap<String, OffsetLen>` as an association
list with unique keys; insertion order stands in for the map's iteration
order (which the code only consumes after sorting by offset). -/
abbrev Index := List (String × OffsetLen)

/-- Model of `HashMap::get`. -/
def lookupIdx (idx : Index) (k : String) : Option OffsetLen :=
  match idx with
  | [] => none
  | (k1, d) :: r => if k1 = k then some d else lookupIdx r k

/-- Model of `HashMap::insert` (replace the value when the key is present,
otherwise add an entry). -/
def insertIdx (idx : Index) (k : String) (d : OffsetLen) : Index :=
  match idx with
  | [] => [(k, d)]
  | (k1, d1) :: r => if k1 = k then (k1, d) :: r else (k1, d1) :: insertIdx r k d

/-- Model of `HashMap::remove` (drop the entry when present). -/
def eraseIdx (idx : Index) (k : String) : Index :=
  match idx with
  | [] => []
  | (k1, d1) :: r => if k1 = k then r else (k1, d1) :: eraseIdx r k

/-- Model of `Entry::or_insert`: the (possibly new) entry for the key and
the resulting map. -/
def orInsert (idx : Index) (k : String) (d : OffsetLen) : Index × OffsetLen :=
  match lookupIdx idx k with
  | some v => (idx, v)
  | none => (idx ++ [(k, d)], d)

/-- A file's content. -/
abbrev FileData := List Char

/-- Positional write (`pwrite`): overwrite `d` at `off`, zero-filling the
gap when `off` lies beyond the end of the file. -/
def writeAt (f : FileData) (off : Nat) (d : List Char) : FileData :=
  ((f ++ List.replicate (off - f.length) (Char.ofNat 0)).take off) ++ d ++
    f.drop (off + d.length)

/-- Positional read of up to `len` characters starting at `off` (a
`seek` + `take(len).read_to_string` pair reads to end of file when fewer
than `len` characters remain). -/
def readAt (f : FileData) (off len : Nat) : FileData :=
  (f.drop off).take len

/-- Rust `i32` interpretation of a `usize` value (`as i32`). -/
def asI32 (n : Nat) : Int :=
  let m := n % 4294967296
  if m < 2147483648 then (m : Int) else (m : Int) - 4294967296

/-- Rust `as u64` / `as usize` interpretation of an `i32` value
(sign-extension, so a negative value becomes a huge unsigned one). -/
def asU64 (i : Int) : Nat := (i % 18446744073709551616).toNat

/-- State of an open `KvStore`, including the file-descriptor level detail
the Rust code depends on (see the module docstring): `handleData`/`handlePos`
describe the inode the `log: Option<File>` handle refers to, `pathData` the
content at `log_name`, and `aliased` whether they are the same file. -/
structure KvStore where
  kvs : Index
  hasLog : Bool
  handleData : FileData
  handlePos : Nat
  pathData : FileData
  aliased : Bool
  log_off : Nat
deriving DecidableEq

/-- Write through the log handle at an explicit offset; when the handle
still refers to the file at the log path, the path content changes too. -/
def hwriteAt (st : KvStore) (off : Nat) (d : List Char) : KvStore :=
  let h := writeAt st.handleData off d
  { st with handleData := h, pathData := if st.aliased then h else st.pathData }

/-- Errors surfaced by the modelled operations. -/
inductive KvError where
  | keyNotFound
  | corruptLog
deriving DecidableEq

/-- One step of the `rebuild_log` loop: process one sorted `(key, value)`
entry given the running `new_file_offset` (`nfo`), `diff`, swap-file content
and handle position; returns the rewritten entry and the updated state.
Mirrors lines 209–225 of `src/lib.rs`, including the `as i32`/`as u64`
casts and the fact that a non-matching entry overrides the cursor with
`value.offset + diff`. -/
def rebuildStep (handle : FileData) (dataStr : List Char) (offset : Nat)
    (value : OffsetLen) (nfo diff : Int) (swap : FileData) (pos : Nat) :
    OffsetLen × Int × Int × FileData × Nat :=
  if offset = value.offset then
    let diff1 := if dataStr.length ≠ value.len then
        (dataStr.length : Int) - (value.len : Int) else diff
    let buf := dataStr
    let swap1 := writeAt swap (asU64 nfo) buf
    let value1 : OffsetLen := { offset := asU64 nfo, len := buf.length }
    (value1, asI32 value1.offset + (buf.length : Int), diff1, swap1, pos)
  else
    let buf := readAt handle value.offset value.len
    let pos1 := value.offset + buf.length
    let nfo1 := asI32 value.offset + diff
    let swap1 := writeAt swap (asU64 nfo1) buf
    let value1 : OffsetLen := { offset := asU64 nfo1, len := buf.length }
    (value1, asI32 value1.offset + (buf.length : Int), diff, swap1, pos1)

/-- The full `rebuild_log` loop over the offset-sorted entries, returning
the rewritten entries together with the final `new_file_offset`, `diff`,
swap content and handle position. -/
def rebuildLoop (handle : FileData) (dataStr : List Char) (offset : Nat) :
    List (String × OffsetLen) → Int → Int → FileData → Nat →
    List (String × OffsetLen) × Int × Int × FileData × Nat
  | [], nfo, diff, swap, pos => ([], nfo, diff, swap, pos)
  | (k, value) :: rest, nfo, diff, swap, pos =>
    let s := rebuildStep handle dataStr offset value nfo diff swap pos
    let r := rebuildLoop handle dataStr offset rest s.2.1 s.2.2.1 s.2.2.2.1 s.2.2.2.2
    ((k, s.1) :: r.1, r.2)

/-- Stable insertion into a list sorted by ascending offset (ties keep the
existing elements first, matching `Vec::sort_by`'s stability). -/
def insertByOffset (x : String × OffsetLen) :
    List (String × OffsetLen) → List (String × OffsetLen)
  | [] => [x]
  | y :: r => if y.2.offset ≤ x.2.offset then y :: insertByOffset x r
      else x :: y :: r

/-- Model of `sorted.sort_by(|l, r| l.1.offset.cmp(&r.1.offset))`. -/
def sortByOffset (l : List (String × OffsetLen)) : List (String × OffsetLen) :=
  match l with
  | [] => []
  | x :: r => insertByOffset x (sortByOffset r)

/-- Model of `KvStore::rebuild_log` (lines 193–232): sort the entries by
offset, rewrite them into a fresh swap file (mutating each entry's
`OffsetLen` in place as it goes), then atomically rename the swap file onto
the log path. The rename replaces `pathData` but the store keeps its old
file handle, so `handleData`, `log_off` and the handle/path aliasing are
*not* refreshed. With `log: None` the function does nothing. -/
def rebuild_log (st : KvStore) (offset : Nat) (dataStr : List Char) : KvStore :=
  if st.hasLog then
    let sorted := sortByOffset st.kvs
    let r := rebuildLoop st.handleData dataStr offset sorted 0 0 [] st.handlePos
    { st with
        kvs := r.1
        pathData := r.2.2.2.1
        aliased := false
        handlePos := r.2.2.2.2 }
  else st

/-- Store state observable if the iteration processing entry `n + 1` of
`rebuild_log` fails and the `?` operator returns early: the first `n`
sorted entries keep their rewritten locations (they were mutated in place
through `iter_mut`), the rename has not happened, and the swap file is
abandoned. -/
def rebuildAborted (st : KvStore) (offset : Nat) (dataStr : List Char)
    (n : Nat) : KvStore :=
  if st.hasLog then
    let sorted := sortByOffset st.kvs
    let r := rebuildLoop st.handleData dataStr offset (sorted.take n) 0 0 []
      st.handlePos
    { st with kvs := r.1 ++ sorted.drop n, handlePos := r.2.2.2.2 }
  else st

/-- Model of `KvStore::set` (lines 90–122). Returns the `Result<()>`
payload together with the updated store. -/
def setOp (st : KvStore) (k v : String) : Except KvError Unit × KvStore :=
  let dataStr := encodeOpt (.SetData k v) ++ ['\n']
  let offset := match lookupIdx st.kvs k with
    | some ol => ol.offset
    | none => st.log_off
  let p := orInsert st.kvs k { offset := offset, len := dataStr.length }
  let st1 := { st with kvs := p.1 }
  if p.2.len ≠ dataStr.length then
    (.ok (), rebuild_log st1 offset dataStr)
  else
    if st1.hasLog then
      let st2 := hwriteAt st1 offset dataStr
      let st3 := if offset + dataStr.length > st2.log_off then
          { st2 with log_off := offset + dataStr.length } else st2
      (.ok (), st3)
    else (.ok (), st1)

/-- Model of `KvStore::remove` (lines 137–154): encode the `RmData` record,
write it through the handle at its *current* position (`write_all`), advance
`log_off`, and only then consult the index; the key string is returned on
success and `keyNotFound` when the key is absent. -/
def removeOp (st : KvStore) (k : String) : Except KvError String × KvStore :=
  let dataStr := encodeOpt (.RmData k) ++ ['\n']
  let st1 := if st.hasLog then
      let st' := hwriteAt st st.handlePos dataStr
      { st' with
          handlePos := st.handlePos + dataStr.length
          log_off := st.log_off + dataStr.length }
    else st
  match lookupIdx st1.kvs k with
  | some _ => (.ok k, { st1 with kvs := eraseIdx st1.kvs k })
  | none => (.error .keyNotFound, st1)

/-- Model of `KvStore::get` (lines 168–189): look up the index, positional
read through the handle (which moves the seek position), decode; a record
that fails to decode surfaces a decode error, a record that decodes to a
non-`SetData` command falls into the `_ => Ok(None)` arm. -/
def getOp (st : KvStore) (k : String) : Except KvError (Option String) × KvStore :=
  match lookupIdx st.kvs k with
  | none => (.ok none, st)
  | some ol =>
    if st.hasLog then
      let buf := readAt st.handleData ol.offset ol.len
      let st1 := { st with handlePos := ol.offset + buf.length }
      match decodeOpt buf with
      | none => (.error .corruptLog, st1)
      | some (.SetData _ v) => (.ok (some v), st1)
      | some _ => (.ok none, st1)
    else (.ok none, st)

/-- Split a file into the chunks `BufRead::lines` yields: pieces between
newline characters, the newline stripped, a final unterminated piece
included, no trailing empty piece for a newline-terminated file. -/
def splitLines (f : FileData) : List (List Char) :=
  match f with
  | [] => []
  | c :: r =>
    if c = '\n' then [] :: splitLines r
    else
      match splitLines r with
      | [] => [[c]]
      | l :: ls => (c :: l) :: ls

/-- The replay loop of `KvStore::open` (lines 245–265): decode each line,
apply `SetData` as an index insert at the running offset, `RmData` as an
index remove (absence being a no-op), ignore `GetData`, advance the offset
by the line length plus one; a line that fails to decode aborts the open. -/
def replay : List (List Char) → Nat → Index → Except KvError (Index × Nat)
  | [], off, idx => .ok (idx, off)
  | line :: rest, off, idx =>
    match decodeOpt line with
    | none => .error .corruptLog
    | some (.SetData key _) =>
      replay rest (off + line.length + 1)
        (insertIdx idx key { offset := off, len := line.length + 1 })
    | some (.RmData key) => replay rest (off + line.length + 1) (eraseIdx idx key)
    | some (.GetData _) => replay rest (off + line.length + 1) idx

/-- Model of `KvStore::open` (lines 235–272) on a directory whose log file
currently holds `disk` (an absent file is the empty content, as
`create(true)` produces): replay the log, then return the open store; the
`BufReader` replay leaves the handle's seek position at end of file. -/
def openStore (disk : FileData) : Except KvError KvStore :=
  match replay (splitLines disk) 0 [] with
  | .error e => .error e
  | .ok (idx, off) =>
    .ok { kvs := idx
          hasLog := true
          handleData := disk
          handlePos := disk.length
          pathData := disk
          aliased := true
          log_off := off }

/-- The store `open` returns on a fresh directory. -/
def freshStore : KvStore :=
  { kvs := [], hasLog := true, handleData := [], handlePos := 0,
    pathData := [], aliased := true, log_off := 0 }

/-- Extract the store from a successful `openStore`, with an explicit
fallback (never used in the closed evaluations below, where the open is
shown to succeed). -/
def getOk (e : Except KvError KvStore) : KvStore :=
  match e with
  | .ok s => s
  | .error _ => freshStore

instance {e a : Type} [DecidableEq e] [DecidableEq a] : DecidableEq (Except e a) :=
  fun x y =>
  match x, y with
  | .ok u, .ok w =>
    if h : u = w then isTrue (by rw [h])
    else isFalse (by intro hc; cases hc; exact h rfl)
  | .error u, .error w =>
    if h : u = w then isTrue (by rw [h])
    else isFalse (by intro hc; cases hc; exact h rfl)
  | .ok _, .error _ => isFalse (by intro hc; cases hc)
  | .error _, .ok _ => isFalse (by intro hc; cases hc)

/-- Fresh store after `set("k", "a")`: one 36-character record at offset 0,
written by `write_at` (the handle's seek position stays at 0). -/
def stSetA : KvStore := (setOp freshStore "k" "a").2

/-- After a further `set("k", "ab")`: the encoded length changes from 36 to
37, so this `set` runs the compactor; the renamed swap file becomes the
path content while the store keeps reading its stale pre-compaction
handle. -/
def stCompacted : KvStore := (setOp stSetA "k" "ab").2

/-- After a further `set("k", "cd")` (same encoded length as the `"ab"`
record, so an in-place `write_at` through the stale handle). -/
def stInPlace : KvStore := (setOp stCompacted "k" "cd").2

/-- The store obtained by reopening the directory of `stInPlace`. -/
def stReopened : KvStore := getOk (openStore stInPlace.pathData)

/-- Fresh store after `set("a", "1")`: record at offset 0, handle position
still 0. -/
def stA1 : KvStore := (setOp freshStore "a" "1").2

/-- After `remove` of an absent 14-character key on `stA1`: the encoded
`RmData` record is 36 characters, exactly overwriting the `SetData` record
at the handle's position 0 before the key lookup fails. -/
def stClobbered : KvStore := (removeOp stA1 "cccccccccccccc").2

/-- Fresh store after `set("a", "1")` then `set("b", "2")`: two contiguous
36-character records. -/
def stAB : KvStore := (setOp stA1 "b" "2").2

/-- The encoded record of `set("a", "xyz")` (38 characters), whose length
differs from the 36 stored for `"a"` in `stAB`, so it triggers compaction
there. -/
def recAxyz : List Char := encodeOpt (.SetData "a" "xyz") ++ ['\n']

/-- A log holding `set("a", "1")` then `set("b", "2")`. -/
def diskAB : FileData :=
  (encodeOpt (.SetData "a" "1") ++ ['\n']) ++ (encodeOpt (.SetData "b" "2") ++ ['\n'])

/-- The store opened on `diskAB` (replay leaves the handle at end of
file). -/
def stOpened : KvStore := getOk (openStore diskAB)

/-- After `remove("a")` on `stOpened`: the tombstone is appended at end of
file, leaving a 36-character garbage gap before the live `"b"` record. -/
def stRmA : KvStore := (removeOp stOpened "a").2

/-- After a further `set("c", "3")`: appended after the tombstone, so the
live records `"b"` and `"c"` are separated by the 23-character tombstone. -/
def stWithC : KvStore := (setOp stRmA "c" "3").2

/-- After a further `set("b", "xx")`: a length-changing update, so the
compactor runs on a file whose live records are not contiguous. -/
def stGapped : KvStore := (setOp stWithC "b" "xx").2

/-- After `set("k", "abc")` on `stSetA`: a compaction that leaves
`log_off` at its stale pre-compaction value 36. -/
def stReK : KvStore := (setOp stSetA "k" "abc").2

/-- After a further `set("j", "x")`: a fresh key appended at the stale
`log_off`, overlapping the compacted `"k"` record's indexed range. -/
def stOverlap : KvStore := (setOp stReK "j" "x").2

/-- Disjointness of the byte ranges of two Locations. -/
@[reducible] def locsDisjoint (a b : OffsetLen) : Prop :=
  a.offset + a.len ≤ b.offset ∨ b.offset + b.len ≤ a.offset

/-- The Index/log invariant exactly as claim C8 states it: every Location
fits inside the log file (the file at the log path), and live Locations'
ranges are pairwise non-overlapping. -/
@[reducible] def claimInv (st : KvStore) : Prop :=
  (∀ p ∈ st.kvs, p.2.offset + p.2.len ≤ st.pathData.length) ∧
  (∀ p ∈ st.kvs, ∀ q ∈ st.kvs, p.1 ≠ q.1 → locsDisjoint p.2 q.2)

/-- Strengthened store invariant that the non-compacting operations do
preserve: Locations fit inside the handle's file and are pairwise
disjoint, the handle file and seek position never pass `log_off`, and an
aliased handle agrees with the path content. -/
@[reducible] def storeInv (st : KvStore) : Prop :=
  (∀ p ∈ st.kvs, p.2.offset + p.2.len ≤ st.handleData.length) ∧
  (∀ p ∈ st.kvs, ∀ q ∈ st.kvs, p.1 ≠ q.1 → locsDisjoint p.2 q.2) ∧
  st.handleData.length ≤ st.log_off ∧
  st.handlePos ≤ st.log_off ∧
  (st.aliased = true → st.pathData = st.handleData)

/-- The condition under which `set(k, v)` does not run the compactor: `k`
is absent, or its stored length equals the new record's length. -/
def noRebuild (st : KvStore) (k v : String) : Bool :=
  match lookupIdx st.kvs k with
  | none => true
  | some ol => ol.len = (encodeOpt (.SetData k v)).length + 1

/-- Whether a log file is empty or newline-terminated (every file the store
itself writes is). -/
def terminated (f : FileData) : Bool :=
  match f.getLast? with
  | none => true
  | some c => c = '\n'

/-- The entries' offsets are consecutive starting at `b`: each entry starts
where the previous one ends. -/
def contigFrom : Nat → List (String × OffsetLen) → Bool
  | _, [] => true
  | b, (_, ol) :: r => ol.offset = b && contigFrom (b + ol.len) r

/-- Concatenation of the byte ranges the entries denote in `handle`. -/
def entriesBytes (handle : FileData) : List (String × OffsetLen) → FileData
  | [] => []
  | (_, ol) :: r => readAt handle ol.offset ol.len ++ entriesBytes handle r

/-- Lay keyed lengths out contiguously starting at offset `b`. -/
def layout : Nat → List (String × Nat) → List (String × OffsetLen)
  | _, [] => []
  | b, (k, n) :: r => (k, ⟨b, n⟩) :: layout (b + n) r

/-- Keep each entry's key and length, dropping the offset. -/
def withLens (l : List (String × OffsetLen)) : List (String × Nat) :=
  l.map (fun p => (p.1, p.2.len))

/-- Sum of the keyed lengths. -/
def sumLens (l : List (String × Nat)) : Nat :=
  match l with
  | [] => 0
  | (_, n) :: r => n + sumLens r

/-- Handle position after sequentially reading each entry's full range
(starting position `p` when there is no entry). -/
def lastEnd : Nat → List (String × OffsetLen) → Nat
  | p, [] => p
  | _, (_, ol) :: r => lastEnd (ol.offset + ol.len) r

/-- Total `line.length + 1` size that the replay loop accumulates. -/
def linesSize (ls : List (List Char)) : Nat :=
  match ls with
  | [] => 0
  | l :: r => l.length + 1 + linesSize r

theorem expectList_append (p r : List Char) : expectList p (p ++ r) = some r := by
  induction p with
  | nil => rfl
  | cons c cs ih => simp [expectList, ih]

theorem hexVal_hexDig (n : Nat) (h : n < 16) : hexVal (hexDig n) = some n := by
  have hall : ∀ m, m < 16 → hexVal (hexDig m) = some m := by decide
  exact hall n h

theorem parseStrBody_esc (c : Char) (r : List Char) :
    parseStrBody (escapeChar c ++ r) =
      match parseStrBody r with
      | some (s, rest) => some (c :: s, rest)
      | none => none := by
  cases hr : parseStrBody r with
  | none =>
    unfold escapeChar
    split_ifs with h1 h2 h3 h4 h5 h6 h7 h8
    · subst h1; simp [parseStrBody, unescChar, hr]
    · subst h2; simp [parseStrBody, unescChar, hr]
    · subst h3; simp [parseStrBody, unescChar, hr]
    · subst h4; simp [parseStrBody, unescChar, hr]
    · subst h5; simp [parseStrBody, unescChar, hr]
    · subst h6; simp [parseStrBody, unescChar, hr]
    · subst h7; simp [parseStrBody, unescChar, hr]
    · simp [parseStrBody, hr,
        hexVal_hexDig (c.toNat / 16) (by omega),
        hexVal_hexDig (c.toNat % 16) (by omega)]
    · simp [parseStrBody, hr, h1, h2]
  | some p =>
    obtain ⟨s, rest⟩ := p
    unfold escapeChar
    split_ifs with h1 h2 h3 h4 h5 h6 h7 h8
    · subst h1; simp [parseStrBody, unescChar, hr]
    · subst h2; simp [parseStrBody, unescChar, hr]
    · subst h3; simp [parseStrBody, unescChar, hr]
    · subst h4; simp [parseStrBody, unescChar, hr]
    · subst h5; simp [parseStrBody, unescChar, hr]
    · subst h6; simp [parseStrBody, unescChar, hr]
    · subst h7; simp [parseStrBody, unescChar, hr]
    · have hd : 16 * (c.toNat / 16) + c.toNat % 16 = c.toNat := by omega
      have h0 : hexVal '0' = some 0 := by decide
      simp [parseStrBody, hr, h0,
        hexVal_hexDig (c.toNat / 16) (by omega),
        hexVal_hexDig (c.toNat % 16) (by omega), hd, Char.ofNat_toNat]
    · simp [parseStrBody, hr, h1, h2]
      omega

theorem strMk_data (s : String) : String.mk s.data = s := rfl

theorem parseStrBody_escList (s r : List Char) :
    parseStrBody (escList s ++ '"' :: r) = some (s, r) := by
  induction s with
  | nil => rfl
  | cons c t ih =>
    rw [escList, List.append_assoc, parseStrBody_esc, ih]

theorem skipWs_enc (d : OptData) (t : List Char) :
    skipWs (encodeOpt d ++ t) = encodeOpt d ++ t := by
  cases d <;> simp [encodeOpt, setPre, rmPre, getPre, skipWs, isWs, lb]

theorem encSet_shape (k v : String) (t : List Char) :
    encodeOpt (.SetData k v) ++ t =
      setPre ++ (escList k.data ++ ('"' :: (",\"value\":\"".data ++
        (escList v.data ++ ('"' :: (rb :: rb :: t)))))) := by
  simp [encodeOpt, setMid, objEnd]

theorem decodeSet_enc (k v : String) (t : List Char) :
    decodeSet (encodeOpt (.SetData k v) ++ t) =
      if (skipWs t).isEmpty then some (.SetData k v) else none := by
  rw [encSet_shape]
  unfold decodeSet
  simp only [expectList_append]
  simp only [parseStrBody_escList]
  simp only [expectList_append]
  simp only [parseStrBody_escList]
  simp only [expectList]
  simp [strMk_data]

theorem encRm_shape (k : String) (t : List Char) :
    encodeOpt (.RmData k) ++ t =
      rmPre ++ (escList k.data ++ ('"' :: (rb :: rb :: t))) := by
  simp [encodeOpt, objEnd]

theorem decodeSet_encRm (k : String) (t : List Char) :
    decodeSet (encodeOpt (.RmData k) ++ t) = none := rfl

theorem decodeKeyOnly_encRm (k : String) (t : List Char) :
    decodeKeyOnly rmPre OptData.RmData (encodeOpt (.RmData k) ++ t) =
      if (skipWs t).isEmpty then some (.RmData k) else none := by
  rw [encRm_shape]
  unfold decodeKeyOnly
  simp only [expectList_append]
  simp only [parseStrBody_escList]
  simp only [expectList]
  simp [strMk_data]

theorem decodeKeyOnlyRm_encSet (k v : String) (t : List Char) :
    decodeKeyOnly rmPre OptData.RmData (encodeOpt (.SetData k v) ++ t) = none := rfl

theorem decodeKeyOnlyGet_encSet (k v : String) (t : List Char) :
    decodeKeyOnly getPre OptData.GetData (encodeOpt (.SetData k v) ++ t) = none := rfl

theorem decodeKeyOnlyGet_encRm (k : String) (t : List Char) :
    decodeKeyOnly getPre OptData.GetData (encodeOpt (.RmData k) ++ t) = none := rfl

theorem decode_encode_set (k v : String) (t : List Char) :
    decodeOpt (encodeOpt (.SetData k v) ++ t) =
      if (skipWs t).isEmpty then some (.SetData k v) else none := by
  unfold decodeOpt
  dsimp only
  rw [skipWs_enc, decodeSet_enc]
  cases h : (skipWs t).isEmpty <;>
    simp [h, decodeKeyOnlyRm_encSet, decodeKeyOnlyGet_encSet]

theorem decode_encode_rm (k : String) (t : List Char) :
    decodeOpt (encodeOpt (.RmData k) ++ t) =
      if (skipWs t).isEmpty then some (.RmData k) else none := by
  unfold decodeOpt
  dsimp only
  rw [skipWs_enc, decodeSet_encRm, decodeKeyOnly_encRm]
  cases h : (skipWs t).isEmpty <;> simp [h, decodeKeyOnlyGet_encRm]

/-- Claim C9: for every command of kind Set or Remove, decoding the
newline-terminated text line produced by encoding it (and likewise the bare
line, as the replay loop sees it) yields the command again. -/
theorem C9_decode_encode_roundtrip :
    (∀ k v : String, decodeOpt (encodeOpt (.SetData k v) ++ ['\n']) = some (.SetData k v) ∧
      decodeOpt (encodeOpt (.SetData k v)) = some (.SetData k v)) ∧
    (∀ k : String, decodeOpt (encodeOpt (.RmData k) ++ ['\n']) = some (.RmData k) ∧
      decodeOpt (encodeOpt (.RmData k)) = some (.RmData k)) := by
  constructor
  · intro k v
    refine ⟨by simpa [skipWs, isWs] using decode_encode_set k v ['\n'], ?_⟩
    simpa [skipWs] using decode_encode_set k v []
  · intro k
    refine ⟨by simpa [skipWs, isWs] using decode_encode_rm k ['\n'], ?_⟩
    simpa [skipWs] using decode_encode_rm k []

theorem lookupIdx_mem (idx : Index) (k : String) (ol : OffsetLen)
    (h : lookupIdx idx k = some ol) : (k, ol) ∈ idx := by
  induction idx with
  | nil => simp [lookupIdx] at h
  | cons p r ih =>
    obtain ⟨k1, d⟩ := p
    by_cases hk : k1 = k
    · subst hk
      simp [lookupIdx] at h
      subst h
      exact List.mem_cons_self _ _
    · simp [lookupIdx, hk] at h
      exact List.mem_cons_of_mem _ (ih h)

theorem mem_eraseIdx (idx : Index) (k : String) (p : String × OffsetLen)
    (h : p ∈ eraseIdx idx k) : p ∈ idx := by
  induction idx with
  | nil => simp [eraseIdx] at h
  | cons q r ih =>
    obtain ⟨k1, d⟩ := q
    by_cases hk : k1 = k
    · subst hk
      simp [eraseIdx] at h
      exact List.mem_cons_of_mem _ h
    · simp [eraseIdx, hk] at h
      rcases h with h | h
      · exact h ▸ List.mem_cons_self _ _
      · exact List.mem_cons_of_mem _ (ih h)

theorem mem_insertIdx (idx : Index) (k : String) (d : OffsetLen)
    (p : String × OffsetLen) (h : p ∈ insertIdx idx k d) : p ∈ idx ∨ p = (k, d) := by
  induction idx with
  | nil => simpa [insertIdx] using h
  | cons q r ih =>
    obtain ⟨k1, d1⟩ := q
    by_cases hk : k1 = k
    · subst hk
      simp [insertIdx] at h
      rcases h with h | h
      · right; simp [h]
      · left; exact List.mem_cons_of_mem _ h
    · simp [insertIdx, hk] at h
      rcases h with h | h
      · left; exact h ▸ List.mem_cons_self _ _
      · rcases ih h with h2 | h2
        · left; exact List.mem_cons_of_mem _ h2
        · right; exact h2

theorem writeAt_length (f : FileData) (off : Nat) (d : List Char) :
    (writeAt f off d).length = max f.length (off + d.length) := by
  unfold writeAt
  simp [List.length_append, List.length_take, List.length_replicate]
  omega

theorem readAt_length (f : FileData) (off len : Nat) :
    (readAt f off len).length = min len (f.length - off) := by
  simp [readAt]

theorem writeAt_append (f : FileData) (d : List Char) :
    writeAt f f.length d = f ++ d := by
  unfold writeAt
  simp [Nat.sub_self]

theorem storeInv_get (st : KvStore) (k : String) (h : storeInv st) :
    storeInv (getOp st k).2 := by
  obtain ⟨hb, hd, hs, hp, ha⟩ := h
  cases hl : lookupIdx st.kvs k with
  | none => simp only [getOp, hl]; exact ⟨hb, hd, hs, hp, ha⟩
  | some ol =>
    cases hlog : st.hasLog with
    | false =>
      simp only [getOp, hl, hlog, Bool.false_eq_true, if_false]
      exact ⟨hb, hd, hs, hp, ha⟩
    | true =>
      have hend : ol.offset + ol.len ≤ st.handleData.length :=
        hb _ (lookupIdx_mem _ _ _ hl)
      have hpos : ol.offset + (readAt st.handleData ol.offset ol.len).length ≤
          st.log_off := by
        rw [readAt_length]; omega
      have hinv : storeInv { st with
          handlePos := ol.offset + (readAt st.handleData ol.offset ol.len).length } :=
        ⟨hb, hd, hs, hpos, ha⟩
      cases hdec : decodeOpt (readAt st.handleData ol.offset ol.len) with
      | none => simp only [getOp, hl, hlog, hdec, if_true]; exact hinv
      | some d =>
        cases d <;> simp only [getOp, hl, hlog, hdec, if_true] <;> exact hinv

theorem storeInv_remove (st : KvStore) (k : String) (h : storeInv st) :
    storeInv (removeOp st k).2 := by
  obtain ⟨hb, hd, hs, hp, ha⟩ := h
  have hbE : ∀ p ∈ eraseIdx st.kvs k, p.2.offset + p.2.len ≤ st.handleData.length :=
    fun p hm => hb p (mem_eraseIdx _ _ _ hm)
  have hdE : ∀ p ∈ eraseIdx st.kvs k, ∀ q ∈ eraseIdx st.kvs k,
      p.1 ≠ q.1 → locsDisjoint p.2 q.2 :=
    fun p hm q hm2 => hd p (mem_eraseIdx _ _ _ hm) q (mem_eraseIdx _ _ _ hm2)
  cases hlog : st.hasLog with
  | false =>
    cases hl : lookupIdx st.kvs k with
    | none =>
      simp only [removeOp, hlog, Bool.false_eq_true, if_false, hl]
      exact ⟨hb, hd, hs, hp, ha⟩
    | some ol =>
      simp only [removeOp, hlog, Bool.false_eq_true, if_false, hl]
      exact ⟨hbE, hdE, hs, hp, ha⟩
  | true =>
    have hwl := writeAt_length st.handleData st.handlePos
      (encodeOpt (.RmData k) ++ ['\n'])
    cases hl : lookupIdx st.kvs k with
    | none =>
      simp only [removeOp, hlog, if_true, hwriteAt, hl, storeInv]
      refine ⟨fun p hm => ?_, hd, ?_, ?_, ?_⟩
      · have := hb p hm
        simp only [hwl]
        omega
      · simp only [hwl]; omega
      · omega
      · intro haa; simp [haa]
    | some ol =>
      simp only [removeOp, hlog, if_true, hwriteAt, hl, storeInv]
      refine ⟨fun p hm => ?_, ?_, ?_, ?_, ?_⟩
      · have := hb p (mem_eraseIdx _ _ _ hm)
        simp only [hwl]
        omega
      · exact fun p hm q hm2 => hd p (mem_eraseIdx _ _ _ hm) q (mem_eraseIdx _ _ _ hm2)
      · simp only [hwl]; omega
      · omega
      · intro haa; simp [haa]

theorem storeInv_set (st : KvStore) (k v : String) (hlog : st.hasLog = true)
    (hnr : noRebuild st k v = true) (h : storeInv st) : storeInv (setOp st k v).2 := by
  obtain ⟨hb, hd, hs, hp, ha⟩ := h
  cases hl : lookupIdx st.kvs k with
  | some ol =>
    have hLen : ol.len = (encodeOpt (.SetData k v) ++ ['\n']).length := by
      unfold noRebuild at hnr
      rw [hl] at hnr
      simpa using hnr
    have hend : ol.offset + ol.len ≤ st.handleData.length :=
      hb _ (lookupIdx_mem _ _ _ hl)
    have hwl := writeAt_length st.handleData ol.offset (encodeOpt (.SetData k v) ++ ['\n'])
    have hnc : ¬ (ol.offset + (encodeOpt (.SetData k v) ++ ['\n']).length > st.log_off) := by
      omega
    simp only [setOp, hl, orInsert, hlog, hLen, hwriteAt, storeInv, ne_eq,
      not_true_eq_false, if_false, if_true, hnc, gt_iff_lt, not_lt]
    refine ⟨fun p hm => ?_, hd, ?_, hp, fun haa => by simp [haa]⟩
    · have := hb p hm
      simp only [hwl]
      omega
    · simp only [hwl]
      omega
  | none =>
    have hpos : 0 < (encodeOpt (.SetData k v) ++ ['\n']).length := by simp
    have hc : st.log_off + (encodeOpt (.SetData k v) ++ ['\n']).length > st.log_off := by
      omega
    have hwl := writeAt_length st.handleData st.log_off
      (encodeOpt (.SetData k v) ++ ['\n'])
    simp only [setOp, hl, orInsert, hlog, hwriteAt, storeInv, ne_eq,
      not_true_eq_false, if_false, if_true, hc, gt_iff_lt, not_lt]
    refine ⟨fun p hm => ?_, fun p hm q hm2 hne => ?_, ?_, ?_, fun haa => by simp [haa]⟩
    · rcases List.mem_append.1 hm with h1 | h1
      · have := hb p h1
        simp only [hwl]
        omega
      · simp only [List.mem_singleton] at h1
        rw [h1]
        dsimp only
        simp only [hwl]
        omega
    · rcases List.mem_append.1 hm with h1 | h1 <;>
        rcases List.mem_append.1 hm2 with h2 | h2
      · exact hd p h1 q h2 hne
      · simp only [List.mem_singleton] at h2
        rw [h2]
        refine Or.inl ?_
        dsimp only
        have := hb p h1
        omega
      · simp only [List.mem_singleton] at h1
        rw [h1]
        refine Or.inr ?_
        dsimp only
        have := hb q h2
        omega
      · simp only [List.mem_singleton] at h1 h2
        rw [h1, h2] at hne
        exact absurd rfl hne
    · simp only [hwl]
      omega
    · omega

theorem replay_off (lines : List (List Char)) (off : Nat) (idx : Index)
    (p : Index × Nat) (h : replay lines off idx = .ok p) :
    p.2 = off + linesSize lines := by
  induction lines generalizing off idx with
  | nil =>
    simp only [replay] at h
    cases h
    simp [linesSize]
  | cons line rest ih =>
    simp only [replay] at h
    cases hdec : decodeOpt line with
    | none => rw [hdec] at h; cases h
    | some d =>
      rw [hdec] at h
      cases d with
      | SetData key val =>
        have := ih _ _ h
        simp [linesSize]
        omega
      | RmData key =>
        have := ih _ _ h
        simp [linesSize]
        omega
      | GetData key =>
        have := ih _ _ h
        simp [linesSize]
        omega

theorem replay_inv (lines : List (List Char)) (off : Nat) (idx : Index)
    (p : Index × Nat) (h : replay lines off idx = .ok p)
    (hb : ∀ q ∈ idx, q.2.offset + q.2.len ≤ off)
    (hd : ∀ q ∈ idx, ∀ r ∈ idx, q.1 ≠ r.1 → locsDisjoint q.2 r.2) :
    off ≤ p.2 ∧ (∀ q ∈ p.1, q.2.offset + q.2.len ≤ p.2) ∧
      (∀ q ∈ p.1, ∀ r ∈ p.1, q.1 ≠ r.1 → locsDisjoint q.2 r.2) := by
  induction lines generalizing off idx with
  | nil =>
    simp only [replay] at h
    cases h
    exact ⟨Nat.le_refl _, hb, hd⟩
  | cons line rest ih =>
    simp only [replay] at h
    cases hdec : decodeOpt line with
    | none => rw [hdec] at h; cases h
    | some d =>
      rw [hdec] at h
      cases d with
      | SetData key val =>
        have hb2 : ∀ q ∈ insertIdx idx key ⟨off, line.length + 1⟩,
            q.2.offset + q.2.len ≤ off + line.length + 1 := by
          intro q hq
          rcases mem_insertIdx _ _ _ _ hq with h1 | h1
          · have := hb q h1
            omega
          · rw [h1]
            dsimp only
            omega
        have hd2 : ∀ q ∈ insertIdx idx key ⟨off, line.length + 1⟩,
            ∀ r ∈ insertIdx idx key ⟨off, line.length + 1⟩,
            q.1 ≠ r.1 → locsDisjoint q.2 r.2 := by
          intro q hq r hr hne
          rcases mem_insertIdx _ _ _ _ hq with h1 | h1 <;>
            rcases mem_insertIdx _ _ _ _ hr with h2 | h2
          · exact hd q h1 r h2 hne
          · rw [h2]
            refine Or.inl ?_
            dsimp only
            have := hb q h1
            omega
          · rw [h1]
            refine Or.inr ?_
            dsimp only
            have := hb r h2
            omega
          · rw [h1, h2] at hne
            exact absurd rfl hne
        have := ih _ _ h hb2 hd2
        exact ⟨by omega, this.2.1, this.2.2⟩
      | RmData key =>
        have hb2 : ∀ q ∈ eraseIdx idx key, q.2.offset + q.2.len ≤ off + line.length + 1 := by
          intro q hq
          have := hb q (mem_eraseIdx _ _ _ hq)
          omega
        have hd2 : ∀ q ∈ eraseIdx idx key, ∀ r ∈ eraseIdx idx key,
            q.1 ≠ r.1 → locsDisjoint q.2 r.2 :=
          fun q hq r hr => hd q (mem_eraseIdx _ _ _ hq) r (mem_eraseIdx _ _ _ hr)
        have := ih _ _ h hb2 hd2
        exact ⟨by omega, this.2.1, this.2.2⟩
      | GetData key =>
        have hb2 : ∀ q ∈ idx, q.2.offset + q.2.len ≤ off + line.length + 1 := by
          intro q hq
          have := hb q hq
          omega
        have := ih _ _ h hb2 hd
        exact ⟨by omega, this.2.1, this.2.2⟩

theorem splitLines_ne_nil (f : FileData) (h : f ≠ []) : splitLines f ≠ [] := by
  cases f with
  | nil => exact absurd rfl h
  | cons c r =>
    by_cases hc : c = '\n'
    · simp [splitLines, hc]
    · simp only [splitLines, hc, if_false]
      cases splitLines r <;> simp

theorem terminated_size (f : FileData) (h : terminated f = true) :
    linesSize (splitLines f) = f.length := by
  induction f with
  | nil => simp [splitLines, linesSize]
  | cons c r ih =>
    have hterm : r = [] ∨ terminated r = true := by
      cases r with
      | nil => exact Or.inl rfl
      | cons c2 r2 =>
        right
        unfold terminated at h ⊢
        rwa [List.getLast?_cons_cons] at h
    by_cases hc : c = '\n'
    · subst hc
      simp only [splitLines, if_true]
      rcases hterm with h1 | h1
      · subst h1
        simp [splitLines, linesSize]
      · simp [linesSize, ih h1]
        omega
    · have hr : r ≠ [] := by
        intro h1
        subst h1
        unfold terminated at h
        simp at h
        exact hc h
      simp only [splitLines, hc, if_false]
      rcases hterm with h1 | h1
      · exact absurd h1 hr
      · have := ih h1
        cases hsp : splitLines r with
        | nil => exact absurd hsp (splitLines_ne_nil r hr)
        | cons l ls =>
          rw [hsp] at this
          simp only [linesSize] at this ⊢
          simp [List.length_cons]
          omega

theorem storeInv_open (disk : FileData) (st : KvStore)
    (hterm : terminated disk = true) (h : openStore disk = .ok st) : storeInv st := by
  unfold openStore at h
  cases hr : replay (splitLines disk) 0 [] with
  | error e => rw [hr] at h; cases h
  | ok p =>
    rw [hr] at h
    cases h
    have hoff : p.2 = disk.length := by
      have := replay_off _ _ _ _ hr
      rw [terminated_size disk hterm] at this
      omega
    have hi := replay_inv _ 0 [] _ hr (by simp) (by simp)
    obtain ⟨k2, off2⟩ := p
    simp only at hoff
    refine ⟨?_, hi.2.2, ?_, ?_, ?_⟩
    · intro q hq
      have := hi.2.1 q hq
      simp only
      omega
    · simp only
      omega
    · simp only
      omega
    · intro _
      rfl

/-- Claim C8 (amended): the Index/log invariant — every Location inside the
file the store reads, ranges pairwise disjoint — extended with the handle
bookkeeping (`storeInv`), is established by `open` on a newline-terminated
log and preserved by `get`, by `remove`, and by any `set` that does not
trigger compaction; on an aliased store it yields exactly the invariant of
the claim (`claimInv`). A compaction-triggering `set` does not preserve it
(see the counterexample). -/
theorem C8_invariant_preservation :
    (∀ st k, storeInv st → storeInv (getOp st k).2) ∧
    (∀ st k, storeInv st → storeInv (removeOp st k).2) ∧
    (∀ st k v, st.hasLog = true → noRebuild st k v = true → storeInv st →
      storeInv (setOp st k v).2) ∧
    (∀ disk st, terminated disk = true → openStore disk = .ok st → storeInv st) ∧
    (∀ st, st.aliased = true → storeInv st → claimInv st) := by
  refine ⟨storeInv_get, storeInv_remove, storeInv_set, storeInv_open, ?_⟩
  intro st haa h
  obtain ⟨hb, hd, _, _, ha⟩ := h
  refine ⟨fun p hm => ?_, hd⟩
  rw [ha haa]
  exact hb p hm

/-- Claim C8 counterexample: the invariant is not preserved by every
operation. After `set("k","a"); set("k","abc")` (a compaction) the store
`stReK` still satisfies the claim's invariant, but the very next
`set("j","x")` appends at the stale `log_off` 36, producing a Location
`(36, 36)` that overlaps the Location `(0, 38)` of `"k"` and exceeds the
38-character log file. -/
theorem C8_counterexample :
    claimInv stReK ∧
    lookupIdx (setOp stReK "j" "x").2.kvs "k" = some ⟨0, 38⟩ ∧
    lookupIdx (setOp stReK "j" "x").2.kvs "j" = some ⟨36, 36⟩ ∧
    (setOp stReK "j" "x").2.pathData.length = 38 ∧
    ¬ locsDisjoint ⟨0, 38⟩ ⟨36, 36⟩ ∧
    ¬ claimInv (setOp stReK "j" "x").2 := by
  refine ⟨by decide, by decide, by decide, by decide, by decide, ?_⟩
  intro hinv
  have h1 : ((("j" : String), (⟨36, 36⟩ : OffsetLen)) ∈ (setOp stReK "j" "x").2.kvs) := by decide
  have := hinv.1 _ h1
  revert this
  decide

/-- Witness for C8: the preservation theorem applied at concrete stores. -/
theorem C8_invariant_preservation_witness :
    storeInv (setOp freshStore "k" "a").2 ∧
    storeInv (getOp stSetA "k").2 ∧
    storeInv (removeOp stSetA "k").2 ∧
    storeInv stOpened ∧
    claimInv stSetA :=
  ⟨C8_invariant_preservation.2.2.1 freshStore "k" "a" rfl (by decide) (by decide),
   C8_invariant_preservation.1 stSetA "k" (by decide),
   C8_invariant_preservation.2.1 stSetA "k" (by decide),
   C8_invariant_preservation.2.2.2.1 diskAB stOpened (by decide) (by decide),
   C8_invariant_preservation.2.2.2.2 stSetA (by decide) (by decide)⟩

theorem readAt_full (f : FileData) (off len : Nat) (h : off + len ≤ f.length) :
    (readAt f off len).length = len := by
  rw [readAt_length]
  omega

theorem asI32_eq (n : Nat) (h : n < 2147483648) : asI32 n = (n : Int) := by
  unfold asI32
  have hm : n % 4294967296 = n := Nat.mod_eq_of_lt (by omega)
  simp [hm]
  omega

theorem asU64_natCast (n : Nat) (h : (n : Int) < 18446744073709551616) :
    asU64 (n : Int) = n := by
  unfold asU64
  rw [Int.emod_eq_of_lt (by omega) h]
  simp

theorem asU64_nonneg (i : Int) (h1 : 0 ≤ i) (h2 : i < 18446744073709551616) :
    asU64 i = i.toNat := by
  unfold asU64
  rw [Int.emod_eq_of_lt h1 h2]

theorem withLens_cons (k : String) (ol : OffsetLen) (r : List (String × OffsetLen)) :
    withLens ((k, ol) :: r) = (k, ol.len) :: withLens r := rfl

theorem sumLens_cons (k : String) (n : Nat) (r : List (String × Nat)) :
    sumLens ((k, n) :: r) = n + sumLens r := rfl

theorem entriesBytes_length (h : FileData) (l : List (String × OffsetLen))
    (hb : ∀ p ∈ l, p.2.offset + p.2.len ≤ h.length) :
    (entriesBytes h l).length = sumLens (withLens l) := by
  induction l with
  | nil => simp [entriesBytes, withLens, sumLens]
  | cons q r ih =>
    obtain ⟨k1, ol1⟩ := q
    have h1 : ol1.offset + ol1.len ≤ h.length := hb _ (List.mem_cons_self _ _)
    simp only [entriesBytes, List.length_append, withLens, List.map_cons, sumLens]
    rw [readAt_full _ _ _ h1]
    have := ih (fun p hp => hb p (List.mem_cons_of_mem _ hp))
    simp only [withLens] at this
    omega

theorem contig_append (l1 l2 : List (String × OffsetLen)) (b : Nat)
    (h : contigFrom b (l1 ++ l2) = true) :
    contigFrom b l1 = true ∧ contigFrom (b + sumLens (withLens l1)) l2 = true := by
  induction l1 generalizing b with
  | nil => simpa [contigFrom, withLens, sumLens] using h
  | cons q r ih =>
    obtain ⟨k1, ol1⟩ := q
    simp only [List.cons_append, contigFrom, Bool.and_eq_true, decide_eq_true_eq] at h
    obtain ⟨h1, h2⟩ := h
    have := ih (b + ol1.len) h2
    refine ⟨?_, ?_⟩
    · simp only [contigFrom, Bool.and_eq_true, decide_eq_true_eq]
      exact ⟨h1, this.1⟩
    · simp only [withLens_cons, sumLens_cons]
      have h3 := this.2
      have harr : b + ol1.len + sumLens (withLens r) =
          b + (ol1.len + sumLens (withLens r)) := by omega
      rw [← harr]
      exact h3

theorem contig_bound (l : List (String × OffsetLen)) (b hlen : Nat)
    (hc : contigFrom b l = true) (hb : ∀ p ∈ l, p.2.offset + p.2.len ≤ hlen) :
    b + sumLens (withLens l) ≤ max b hlen := by
  induction l generalizing b with
  | nil => simp [withLens, sumLens]
  | cons q r ih =>
    obtain ⟨k1, ol1⟩ := q
    simp only [contigFrom, Bool.and_eq_true, decide_eq_true_eq] at hc
    obtain ⟨h1, h2⟩ := hc
    have hh : ol1.offset + ol1.len ≤ hlen := hb _ (List.mem_cons_self _ _)
    have := ih (b + ol1.len) h2 (fun p hp => hb p (List.mem_cons_of_mem _ hp))
    simp only [withLens_cons, sumLens_cons]
    omega

theorem layout_append (l1 l2 : List (String × Nat)) (b : Nat) :
    layout b (l1 ++ l2) = layout b l1 ++ layout (b + sumLens l1) l2 := by
  induction l1 generalizing b with
  | nil => simp [layout, sumLens]
  | cons q r ih =>
    obtain ⟨k1, n⟩ := q
    simp only [List.cons_append, layout, sumLens]
    simp only [List.append_eq]
    rw [ih (b + n)]
    have : b + n + sumLens r = b + (n + sumLens r) := by omega
    rw [this]

theorem rebuildLoop_append (h d : List Char) (offset : Nat)
    (l1 l2 : List (String × OffsetLen)) (nfo diff : Int) (swap : FileData)
    (pos : Nat) :
    rebuildLoop h d offset (l1 ++ l2) nfo diff swap pos =
      ((rebuildLoop h d offset l1 nfo diff swap pos).1 ++
        (rebuildLoop h d offset l2
          (rebuildLoop h d offset l1 nfo diff swap pos).2.1
          (rebuildLoop h d offset l1 nfo diff swap pos).2.2.1
          (rebuildLoop h d offset l1 nfo diff swap pos).2.2.2.1
          (rebuildLoop h d offset l1 nfo diff swap pos).2.2.2.2).1,
       (rebuildLoop h d offset l2
          (rebuildLoop h d offset l1 nfo diff swap pos).2.1
          (rebuildLoop h d offset l1 nfo diff swap pos).2.2.1
          (rebuildLoop h d offset l1 nfo diff swap pos).2.2.2.1
          (rebuildLoop h d offset l1 nfo diff swap pos).2.2.2.2).2) := by
  induction l1 generalizing nfo diff swap pos with
  | nil => simp [rebuildLoop]
  | cons q r ih =>
    obtain ⟨k1, ol1⟩ := q
    simp only [List.cons_append, rebuildLoop]
    simp only [List.append_eq]
    rw [ih]

theorem rebuildLoop_pre (handle dataStr : List Char) (offset : Nat)
    (pre : List (String × OffsetLen)) (swap : FileData) (pos : Nat)
    (hno : ∀ p ∈ pre, p.2.offset ≠ offset)
    (hcontig : contigFrom swap.length pre = true)
    (hbound : ∀ p ∈ pre, p.2.offset + p.2.len ≤ handle.length)
    (hsmall : handle.length < 2147483648) :
    rebuildLoop handle dataStr offset pre (swap.length : Int) 0 swap pos =
      (layout swap.length (withLens pre),
       ((swap ++ entriesBytes handle pre).length : Int), 0,
       swap ++ entriesBytes handle pre, lastEnd pos pre) := by
  induction pre generalizing swap pos with
  | nil => simp [rebuildLoop, layout, withLens, entriesBytes, lastEnd]
  | cons q r ih =>
    obtain ⟨k1, ol1⟩ := q
    simp only [contigFrom, Bool.and_eq_true, decide_eq_true_eq] at hcontig
    obtain ⟨hoff, hcr⟩ := hcontig
    have hb1 : ol1.offset + ol1.len ≤ handle.length := hbound _ (List.mem_cons_self _ _)
    have hlen1 : (readAt handle ol1.offset ol1.len).length = ol1.len :=
      readAt_full _ _ _ hb1
    have hne1 : ¬ (offset = ol1.offset) :=
      fun hh => (hno _ (List.mem_cons_self _ _)) hh.symm
    have hi32 : asI32 ol1.offset = (ol1.offset : Int) := asI32_eq _ (by omega)
    have hu64 : asU64 ((ol1.offset : Int) + 0) = ol1.offset := by
      rw [Int.add_zero]
      exact asU64_natCast _ (by omega)
    have hw : writeAt swap ol1.offset (readAt handle ol1.offset ol1.len) =
        swap ++ readAt handle ol1.offset ol1.len := by
      rw [hoff]
      exact writeAt_append _ _
    simp only [rebuildLoop, rebuildStep, hne1, if_false, hi32, hu64, hlen1, hw]
    have hslen : (swap ++ readAt handle ol1.offset ol1.len).length =
        swap.length + ol1.len := by
      rw [List.length_append, hlen1]
    have hcast : (ol1.offset : Int) + (ol1.len : Int) =
        ((swap ++ readAt handle ol1.offset ol1.len).length : Int) := by
      rw [hslen, hoff]
      push_cast
      ring
    rw [hcast, ih _ _ (fun p hp => hno p (List.mem_cons_of_mem _ hp))
      (by rw [hslen]; exact hcr) (fun p hp => hbound p (List.mem_cons_of_mem _ hp))]
    simp only [layout, withLens_cons, entriesBytes, lastEnd, List.append_assoc,
      hoff, hslen, Prod.mk.injEq]
    refine ⟨?_, trivial⟩
    have hrlen : (readAt handle (List.length swap) ol1.len).length = ol1.len := by
      rw [← hoff]
      exact hlen1
    rw [List.length_append, hrlen]
    rfl

theorem rebuildLoop_post (handle dataStr : List Char) (offset : Nat)
    (post : List (String × OffsetLen)) (nfo diff : Int) (swap : FileData)
    (pos : Nat) (c : Nat)
    (hno : ∀ p ∈ post, p.2.offset ≠ offset)
    (hcontig : contigFrom c post = true)
    (hdiff : (c : Int) + diff = (swap.length : Int))
    (hbound : ∀ p ∈ post, p.2.offset + p.2.len ≤ handle.length)
    (hsmall : handle.length < 2147483648)
    (hswap : swap.length + (entriesBytes handle post).length < 2147483648) :
    (rebuildLoop handle dataStr offset post nfo diff swap pos).1 =
        layout swap.length (withLens post) ∧
    (rebuildLoop handle dataStr offset post nfo diff swap pos).2.2.2.1 =
        swap ++ entriesBytes handle post ∧
    (rebuildLoop handle dataStr offset post nfo diff swap pos).2.2.2.2 =
        lastEnd pos post := by
  induction post generalizing nfo diff swap pos c with
  | nil => simp [rebuildLoop, layout, withLens, entriesBytes, lastEnd]
  | cons q r ih =>
    obtain ⟨k1, ol1⟩ := q
    simp only [contigFrom, Bool.and_eq_true, decide_eq_true_eq] at hcontig
    obtain ⟨hoff, hcr⟩ := hcontig
    have hb1 : ol1.offset + ol1.len ≤ handle.length := hbound _ (List.mem_cons_self _ _)
    have hlen1 : (readAt handle ol1.offset ol1.len).length = ol1.len :=
      readAt_full _ _ _ hb1
    have hne1 : ¬ (offset = ol1.offset) :=
      fun hh => (hno _ (List.mem_cons_self _ _)) hh.symm
    have heb : (entriesBytes handle ((k1, ol1) :: r)).length =
        ol1.len + (entriesBytes handle r).length := by
      simp only [entriesBytes, List.length_append, hlen1]
    have hi32 : asI32 ol1.offset = (ol1.offset : Int) := asI32_eq _ (by omega)
    have hint : (ol1.offset : Int) + diff = (swap.length : Int) := by
      rw [hoff]
      exact hdiff
    have hu64 : asU64 ((ol1.offset : Int) + diff) = swap.length := by
      rw [hint]
      exact asU64_natCast _ (by omega)
    have hw : writeAt swap swap.length (readAt handle ol1.offset ol1.len) =
        swap ++ readAt handle ol1.offset ol1.len := writeAt_append _ _
    simp only [rebuildLoop, rebuildStep, hne1, if_false, hi32, hu64, hlen1, hw]
    have hslen : (swap ++ readAt handle ol1.offset ol1.len).length =
        swap.length + ol1.len := by
      rw [List.length_append, hlen1]
    have hih := ih (asI32 swap.length + (ol1.len : Int)) diff
      (swap ++ readAt handle ol1.offset ol1.len) (ol1.offset + ol1.len)
      (c + ol1.len)
      (fun p hp => hno p (List.mem_cons_of_mem _ hp)) hcr
      (by rw [hslen]; push_cast at hdiff ⊢; omega)
      (fun p hp => hbound p (List.mem_cons_of_mem _ hp))
      (by rw [hslen]; omega)
    refine ⟨?_, ?_, ?_⟩
    · rw [hih.1]
      simp only [withLens_cons, layout, hslen]
      rfl
    · rw [hih.2.1]
      simp only [entriesBytes, List.append_assoc]
    · rw [hih.2.2]
      rfl

/-- Claim C2 (amended): after a compaction triggered by `set(k, v)` on a
store whose live records (as sorted by the compactor) occupy a contiguous
prefix of the old file starting at offset 0, the new log file is exactly
the live records written contiguously from offset 0 in ascending order of
their old offsets, with no unreachable bytes, and each Index entry's
Location is the (cursor, bytes written) of its record. Without the
contiguity hypothesis this fails: a non-updated entry is written at
`old offset + diff`, not at the cursor (see the counterexample). -/
theorem C2_compaction_contiguous_layout (st : KvStore) (k v : String)
    (pre post : List (String × OffsetLen)) (olm : OffsetLen)
    (hlog : st.hasLog = true)
    (hl : lookupIdx st.kvs k = some olm)
    (hne : (encodeOpt (.SetData k v) ++ ['\n']).length ≠ olm.len)
    (hsort : sortByOffset st.kvs = pre ++ (k, olm) :: post)
    (hcontig : contigFrom 0 (pre ++ (k, olm) :: post) = true)
    (hnoPre : ∀ p ∈ pre, p.2.offset ≠ olm.offset)
    (hnoPost : ∀ p ∈ post, p.2.offset ≠ olm.offset)
    (hbound : ∀ p ∈ pre ++ (k, olm) :: post,
      p.2.offset + p.2.len ≤ st.handleData.length)
    (hsmall : st.handleData.length + (encodeOpt (.SetData k v) ++ ['\n']).length <
      2147483648) :
    (setOp st k v).2.kvs =
      layout 0 (withLens pre ++
        (k, (encodeOpt (.SetData k v) ++ ['\n']).length) :: withLens post) ∧
    (setOp st k v).2.pathData =
      entriesBytes st.handleData pre ++ (encodeOpt (.SetData k v) ++ ['\n']) ++
        entriesBytes st.handleData post ∧
    (setOp st k v).2.pathData.length =
      sumLens (withLens pre) + (encodeOpt (.SetData k v) ++ ['\n']).length +
        sumLens (withLens post) ∧
    (setOp st k v).2.aliased = false := by
  have hcond : olm.len ≠ (encodeOpt (.SetData k v) ++ ['\n']).length :=
    fun hh => hne hh.symm
  have hstep : (setOp st k v).2 =
      rebuild_log st olm.offset (encodeOpt (.SetData k v) ++ ['\n']) := by
    simp only [setOp, hl, orInsert, hcond, ne_eq, not_false_eq_true, if_true]
  rw [hstep]
  have hbPre : ∀ p ∈ pre, p.2.offset + p.2.len ≤ st.handleData.length :=
    fun p hp => hbound p (List.mem_append.2 (Or.inl hp))
  have hbPost : ∀ p ∈ post, p.2.offset + p.2.len ≤ st.handleData.length :=
    fun p hp => hbound p
      (List.mem_append.2 (Or.inr (List.mem_cons_of_mem _ hp)))
  have hbM : olm.offset + olm.len ≤ st.handleData.length :=
    hbound (k, olm) (List.mem_append.2 (Or.inr (List.mem_cons_self _ _)))
  have hsplit := contig_append pre ((k, olm) :: post) 0 hcontig
  have hcPre : contigFrom 0 pre = true := hsplit.1
  have hrest := hsplit.2
  simp only [Nat.zero_add, contigFrom, Bool.and_eq_true, decide_eq_true_eq] at hrest
  have hOlmOff : olm.offset = sumLens (withLens pre) := hrest.1
  have hcPost : contigFrom (olm.offset + olm.len) post = true := by
    have := hrest.2
    rwa [← hOlmOff] at this
  have hebPre : (entriesBytes st.handleData pre).length = sumLens (withLens pre) :=
    entriesBytes_length _ _ hbPre
  have hebPost : (entriesBytes st.handleData post).length = sumLens (withLens post) :=
    entriesBytes_length _ _ hbPost
  have htot : sumLens (withLens pre) + olm.len ≤ st.handleData.length := by
    have := contig_bound pre 0 st.handleData.length hcPre hbPre
    simp only [Nat.zero_add, Nat.zero_max] at this
    omega
  have hpostTot : olm.offset + olm.len + sumLens (withLens post) ≤
      st.handleData.length := by
    have := contig_bound post (olm.offset + olm.len) st.handleData.length hcPost hbPost
    omega
  simp only [rebuild_log, hlog, if_true, hsort]
  rw [rebuildLoop_append]
  have hpre := rebuildLoop_pre st.handleData (encodeOpt (.SetData k v) ++ ['\n'])
    olm.offset pre [] st.handlePos hnoPre (by simpa using hcPre) hbPre (by omega)
  simp only [List.length_nil, Nat.cast_zero, List.nil_append] at hpre
  rw [hpre]
  dsimp only
  have hu64 : asU64 ((List.length (entriesBytes st.handleData pre) : Int)) =
      List.length (entriesBytes st.handleData pre) :=
    asU64_natCast _ (by omega)
  have hwD : writeAt (entriesBytes st.handleData pre)
      (List.length (entriesBytes st.handleData pre))
      (encodeOpt (.SetData k v) ++ ['\n']) =
      entriesBytes st.handleData pre ++ (encodeOpt (.SetData k v) ++ ['\n']) :=
    writeAt_append _ _
  simp only [rebuildLoop, rebuildStep, eq_self_iff_true, if_true, hne, ne_eq,
    not_false_eq_true, hu64, hwD]
  have hdiffGoal : ((olm.offset + olm.len : Nat) : Int) +
      (((encodeOpt (.SetData k v) ++ ['\n']).length : Int) - (olm.len : Int)) =
      ((entriesBytes st.handleData pre ++
        (encodeOpt (.SetData k v) ++ ['\n'])).length : Int) := by
    simp only [List.length_append, hebPre]
    rw [hOlmOff]
    push_cast
    ring
  have hswapGoal : (entriesBytes st.handleData pre ++
      (encodeOpt (.SetData k v) ++ ['\n'])).length +
      (entriesBytes st.handleData post).length < 2147483648 := by
    rw [List.length_append, hebPre, hebPost]
    omega
  have hpost := rebuildLoop_post st.handleData (encodeOpt (.SetData k v) ++ ['\n'])
    olm.offset post
    (asI32 (List.length (entriesBytes st.handleData pre)) +
      ((encodeOpt (.SetData k v) ++ ['\n']).length : Int))
    (((encodeOpt (.SetData k v) ++ ['\n']).length : Int) - (olm.len : Int))
    (entriesBytes st.handleData pre ++ (encodeOpt (.SetData k v) ++ ['\n']))
    (lastEnd st.handlePos pre) (olm.offset + olm.len)
    hnoPost hcPost hdiffGoal hbPost (by omega) hswapGoal
  rw [hpost.1, hpost.2.1]
  refine ⟨?_, ?_, ?_, trivial⟩
  · simp only [layout_append, layout, Nat.zero_add, List.length_append, hebPre]
  · rw [List.append_assoc]
  · rw [List.length_append, List.length_append, hebPre, hebPost]

/-- Witness for C2: the layout theorem applied to the two-record store
`stAB`, whose records are contiguous, updating `"a"` with a longer value. -/
theorem C2_compaction_contiguous_layout_witness :
    (setOp stAB "a" "xyz").2.kvs =
      layout 0 (withLens [] ++
        ("a", (encodeOpt (.SetData "a" "xyz") ++ ['\n']).length) ::
        withLens [("b", ⟨36, 36⟩)]) ∧
    (setOp stAB "a" "xyz").2.pathData =
      entriesBytes stAB.handleData [] ++ (encodeOpt (.SetData "a" "xyz") ++ ['\n']) ++
        entriesBytes stAB.handleData [("b", ⟨36, 36⟩)] ∧
    (setOp stAB "a" "xyz").2.aliased = false :=
  have h := C2_compaction_contiguous_layout stAB "a" "xyz" [] [("b", ⟨36, 36⟩)] ⟨0, 36⟩
    (by decide) (by decide) (by decide) (by decide) (by decide) (by decide)
    (by decide) (by decide) (by decide)
  ⟨h.1, h.2.1, h.2.2.2⟩

set_option maxRecDepth 4000 in
/-- Claim C2 counterexample: a compaction run triggered by `set("b","xx")`
on the reachable store `stWithC` (live records `"b"` at 36 and `"c"` at 95,
separated by a tombstone) produces a log of 132 characters in which `"c"`
sits at offset 96 instead of at the cursor 37, leaving a 59-character
zero-filled unreachable gap — the log is not exactly the live records. -/
theorem C2_counterexample :
    lookupIdx stWithC.kvs "b" = some ⟨36, 36⟩ ∧
    (encodeOpt (.SetData "b" "xx") ++ ['\n']).length = 37 ∧
    sortByOffset (setOp stWithC "b" "xx").2.kvs = [("b", ⟨0, 37⟩), ("c", ⟨96, 36⟩)] ∧
    (setOp stWithC "b" "xx").2.pathData.length = 132 ∧
    (setOp stWithC "b" "xx").2.pathData.take 37 ≠
      (setOp stWithC "b" "xx").2.pathData := by decide

/-- Claim C1 (evaluated at the failing input): on a fresh store,
`set("k","a"); set("k","ab")` changes the encoded length and so runs the
compactor; the renamed log file on disk holds exactly the `"ab"` record,
yet `get("k")` on the still-open store returns `Ok(Some "a")` — the read
goes through the pre-compaction file handle, which `rebuild_log` never
refreshes after `fs::rename`. -/
theorem C1_compacted_get_returns_stale :
    stCompacted.pathData = encodeOpt (.SetData "k" "ab") ++ ['\n'] ∧
    (getOp stCompacted "k").1 = .ok (some "a") := by decide

/-- Claim C5 (evaluated at the failing input): after
`set("k","a"); set("k","ab")` (compaction) a further `set("k","cd")`
writes in place through the stale handle, so it never reaches the file at
the log path; reopening the directory replays only the compacted `"ab"`
record and `get("k")` returns `Ok(Some "ab")`, not the most recent
`"cd"`. -/
theorem C5_reopen_after_compaction_loses_set :
    openStore stInPlace.pathData = .ok stReopened ∧
    (getOp stReopened "k").1 = .ok (some "ab") := by decide

/-- Claim C4 counterexample: `remove("a")` on a fresh (empty) store fails
with key-not-found, yet the encoded Remove record has already been written
to the log and `log_off` advanced — the store is not left unchanged. -/
theorem C4_counterexample :
    (removeOp freshStore "a").1 = .error .keyNotFound ∧
    (removeOp freshStore "a").2.pathData = encodeOpt (.RmData "a") ++ ['\n'] ∧
    (removeOp freshStore "a").2.log_off = 23 := by decide

/-- Claim C4 (amended): `remove(k)` always writes the Remove record at the
handle's current position and advances `log_off`, whether or not `k` is
present; when `k` is absent it then fails with key-not-found leaving the
Index unchanged, and when `k` is present it succeeds and discards the
Index entry. -/
theorem C4_remove_always_writes (st : KvStore) (k : String)
    (hlog : st.hasLog = true) :
    (removeOp st k).2.handleData =
      writeAt st.handleData st.handlePos (encodeOpt (.RmData k) ++ ['\n']) ∧
    (removeOp st k).2.log_off = st.log_off + (encodeOpt (.RmData k) ++ ['\n']).length ∧
    (lookupIdx st.kvs k = none →
      (removeOp st k).1 = .error .keyNotFound ∧ (removeOp st k).2.kvs = st.kvs) ∧
    (∀ ol, lookupIdx st.kvs k = some ol →
      (removeOp st k).1 = .ok k ∧ (removeOp st k).2.kvs = eraseIdx st.kvs k) := by
  unfold removeOp
  simp only [hlog, if_true]
  cases hl : lookupIdx st.kvs k <;> simp [hl, hwriteAt]

/-- Witness for C4: the amended theorem applied to a fresh store and the
absent key `"a"`. -/
theorem C4_remove_always_writes_witness :
    (removeOp freshStore "a").1 = .error .keyNotFound ∧
    (removeOp freshStore "a").2.kvs = freshStore.kvs :=
  (C4_remove_always_writes freshStore "a" rfl).2.2.1 (by decide)

/-- Claim C6 counterexample: `set` returns `Ok(())` whether or not the key
held a previous value — on `stSetA` the key `"k"` holds `"a"`, on the
fresh store it is absent, and `set("k","b")` returns the identical unit
payload in both cases, so the return cannot carry the previous value. -/
theorem C6_counterexample :
    lookupIdx stSetA.kvs "k" = some ⟨0, 36⟩ ∧
    lookupIdx freshStore.kvs "k" = none ∧
    (setOp stSetA "k" "b").1 = (setOp freshStore "k" "b").1 := by decide

/-- Claim C6 (amended): a successful `set` always returns the bare unit
value (the Rust signature is `Result<()>`); the previous value is never
returned. -/
theorem C6_set_returns_unit (st : KvStore) (k v : String) :
    (setOp st k v).1 = .ok () := by
  unfold setOp
  dsimp only
  split
  · rfl
  · split <;> rfl

/-- Claim C7 counterexample: a reachable store whose Index maps `"a"` to a
range that decodes to a Remove command — built by `set("a","1")` followed
by `remove` of an absent 14-character key, whose 36-character tombstone
exactly overwrites the Set record at the handle's position 0 — makes
`get("a")` return the normal `Ok(None)`, not a corrupt-log error. -/
theorem C7_counterexample :
    lookupIdx stClobbered.kvs "a" = some ⟨0, 36⟩ ∧
    decodeOpt (readAt stClobbered.handleData 0 36) = some (.RmData "cccccccccccccc") ∧
    (getOp stClobbered "a").1 = .ok none := by decide

/-- Claim C7 (amended): for a key present in the Index, `get` surfaces a
corrupt-log error only when the bytes at the indexed range fail to decode;
bytes that decode to a Remove or Get command fall into the code's
`_ => Ok(None)` arm and produce the normal not-found result, and a Set
yields its value. -/
theorem C7_get_decode_outcomes (st : KvStore) (k : String) (ol : OffsetLen)
    (hl : lookupIdx st.kvs k = some ol) (hlog : st.hasLog = true) :
    (decodeOpt (readAt st.handleData ol.offset ol.len) = none →
      (getOp st k).1 = .error .corruptLog) ∧
    (∀ k2 v, decodeOpt (readAt st.handleData ol.offset ol.len) = some (.SetData k2 v) →
      (getOp st k).1 = .ok (some v)) ∧
    (∀ k2, decodeOpt (readAt st.handleData ol.offset ol.len) = some (.RmData k2) →
      (getOp st k).1 = .ok none) ∧
    (∀ k2, decodeOpt (readAt st.handleData ol.offset ol.len) = some (.GetData k2) →
      (getOp st k).1 = .ok none) := by
  unfold getOp
  simp only [hl, hlog, if_true]
  refine ⟨?_, ?_, ?_, ?_⟩
  · intro h; simp [h]
  · intro k2 v h; simp [h]
  · intro k2 h; simp [h]
  · intro k2 h; simp [h]

/-- Witness for C7: the amended theorem applied to the clobbered store,
whose indexed range for `"a"` decodes to a Remove command. -/
theorem C7_get_decode_outcomes_witness :
    lookupIdx stClobbered.kvs "a" = some ⟨0, 36⟩ ∧
    (getOp stClobbered "a").1 = .ok none :=
  ⟨by decide,
   (C7_get_decode_outcomes stClobbered "a" ⟨0, 36⟩ (by decide)
     (by decide)).2.2.1 "cccccccccccccc" (by decide)⟩

/-- Claim C3 counterexample: on the two-record store `stAB`, if the
compaction that `set("a","xyz")` triggers fails after rewriting the first
sorted entry (modelled by `rebuildAborted … 1`, the state the `?` operator
leaves behind), the Index entry for `"a"` already holds the rewritten
Location `(0, 38)` although the rename never happened — Index mutation is
not deferred until after the rename. -/
theorem C3_counterexample :
    lookupIdx stAB.kvs "a" = some ⟨0, 36⟩ ∧
    lookupIdx (rebuildAborted stAB 0 recAxyz 1).kvs "a" = some ⟨0, 38⟩ ∧
    (rebuildAborted stAB 0 recAxyz 1).pathData = stAB.pathData ∧
    recAxyz.length ≠ 36 := by decide

/-- Claim C3 (amended): a compaction that fails before the rename leaves
the log file untouched — the path content, the handle's content and
`log_off` are exactly as before — but the Index entries already processed
keep their rewritten Locations (they are mutated in place as the loop
runs, not after the rename). -/
theorem C3_failed_compaction_file_untouched (st : KvStore) (offset : Nat)
    (dataStr : List Char) (n : Nat) :
    (rebuildAborted st offset dataStr n).pathData = st.pathData ∧
    (rebuildAborted st offset dataStr n).handleData = st.handleData ∧
    (rebuildAborted st offset dataStr n).aliased = st.aliased ∧
    (rebuildAborted st offset dataStr n).log_off = st.log_off := by
  unfold rebuildAborted
  split <;> simp

/-- Claim C10: `get` never changes the Index (key set and Locations), the
handle's file content, the path content, `log_off`, or the store flags,
and a repeated `get` of the same key returns the same result — only the
handle's seek position moves. -/
theorem C10_get_preserves_state (st : KvStore) (k : String) :
    (getOp st k).2.kvs = st.kvs ∧
    (getOp st k).2.handleData = st.handleData ∧
    (getOp st k).2.pathData = st.pathData ∧
    (getOp st k).2.aliased = st.aliased ∧
    (getOp st k).2.hasLog = st.hasLog ∧
    (getOp st k).2.log_off = st.log_off ∧
    (getOp (getOp st k).2 k).1 = (getOp st k).1 := by
  cases hl : lookupIdx st.kvs k with
  | none => simp [getOp, hl]
  | some ol =>
    cases hlog : st.hasLog with
    | false => simp [getOp, hl, hlog]
    | true =>
      cases hd : decodeOpt (readAt st.handleData ol.offset ol.len) with
      | none => simp [getOp, hl, hlog, hd]
      | some d => cases d <;> simp [getOp, hl, hlog, hd]
